import Mathlib

/-!
Shallow embedding of the loquat-vc signature scheme (Rust sources under
src/): field arithmetic over the Mersenne prime 2^127 - 1, the Legendre
PRF, the Merkle commitment tree, and the Loquat sign/verify protocol with
its ring and aggregate extensions.  The SHA3-256 digest is an external
collaborator of the repository (the sha3 crate) and is modelled as an
injected function argument of type List Nat to List Nat.  Rust panics
(explicit panic or BigUint subtraction underflow or Option unwrap) are
modelled by Option results, with none denoting an abort.  Randomness
draws (challenges) are made explicit parameters.
-/

set_option maxRecDepth 8000

/-- The prime field modulus p = 2^127 - 1 used throughout the repository. -/
def P : Nat := 2 ^ 127 - 1

/-- Big-endian minimal byte encoding helper, fuelled recursion on the value
divided by 256 each step (64 bytes of fuel covers every value produced by a
32-byte digest or a u128). Mirrors num_bigint BigUint.to_bytes_be digits. -/
def natBytesBE : Nat → Nat → List Nat
  | 0, _ => []
  | fuel + 1, n => if n = 0 then [] else natBytesBE fuel (n / 256) ++ [n % 256]

/-- BigUint.to_bytes_be: minimal big-endian bytes, with 0 encoded as [0]. -/
def to_bytes_be (n : Nat) : List Nat :=
  if n = 0 then [0] else natBytesBE 64 n

/-- BigUint.from_bytes_be: interpret a byte list as a big-endian integer. -/
def from_bytes_be (l : List Nat) : Nat :=
  l.foldl (fun acc b => acc * 256 + b) 0

/-- u128.to_be_bytes: fixed 16-byte big-endian encoding. -/
def to_be_bytes_u128 (n : Nat) : List Nat :=
  (List.range 16).map (fun i => n / 256 ^ (15 - i) % 256)

namespace LegendrePRF

/-- mod_add from src/src/crypto/legendre_prf.rs. -/
def mod_add (a b modulus : Nat) : Nat :=
  (a % modulus + b % modulus) % modulus

/-- mod_sub from src/src/crypto/legendre_prf.rs. -/
def mod_sub (a b modulus : Nat) : Nat :=
  let a_mod := a % modulus
  let b_mod := b % modulus
  if a_mod ≥ b_mod then (a_mod - b_mod) % modulus
  else (modulus + a_mod - b_mod) % modulus

/-- The while loop of mod_mul in src/src/crypto/legendre_prf.rs (shift-and-add
multiplication), fuelled by the bit width of the u128 operand. -/
def mod_mul_loop (modulus : Nat) : Nat → Nat → Nat → Nat → Nat
  | 0, res, _, _ => res
  | fuel + 1, res, a_temp, b_temp =>
    if b_temp = 0 then res
    else
      mod_mul_loop modulus fuel
        (if b_temp % 2 = 1 then mod_add res a_temp modulus else res)
        (mod_add a_temp a_temp modulus)
        (b_temp / 2)

/-- mod_mul from src/src/crypto/legendre_prf.rs. -/
def mod_mul (a b modulus : Nat) : Nat :=
  mod_mul_loop modulus 128 0 (a % modulus) (b % modulus)

/-- The while loop of mod_pow in src/src/crypto/legendre_prf.rs
(square-and-multiply), fuelled by the bit width of the u128 exponent. -/
def mod_pow_loop (modulus : Nat) : Nat → Nat → Nat → Nat → Nat
  | 0, result, _, _ => result
  | fuel + 1, result, base_mod, exp_temp =>
    if exp_temp = 0 then result
    else
      mod_pow_loop modulus fuel
        (if exp_temp % 2 = 1 then mod_mul result base_mod modulus else result)
        (mod_mul base_mod base_mod modulus)
        (exp_temp / 2)

/-- mod_pow from src/src/crypto/legendre_prf.rs. -/
def mod_pow (base exp modulus : Nat) : Nat :=
  if modulus = 1 then 0 else mod_pow_loop modulus 128 1 (base % modulus) exp

/-- LegendrePRF::legendre_symbol: 0 on zero input, 1 when the modular
exponentiation by (P-1)/2 yields 1, otherwise -1. -/
def legendre_symbol (a : Nat) : Int :=
  if a = 0 then 0
  else
    let exp := mod_sub P 1 P / 2
    if mod_pow a exp P = 1 then 1 else -1

/-- LegendrePRF::evaluate on secret key and input x.  The Rust code panics
on the Legendre symbol 0 (the wildcard match arm); the panic is modelled
as none. -/
def evaluate (secret_key x : Nat) : Option Nat :=
  let k_x := mod_add secret_key x P
  let s := legendre_symbol k_x
  if s = 1 then some 0
  else if s = -1 then some 1
  else none

/-- LegendrePRF::with_key reduces the provided key modulo P; evaluating the
PRF built by with_key is evaluate (key % P). -/
def evaluate_with_key (key x : Nat) : Option Nat :=
  evaluate (key % P) x

end LegendrePRF

namespace FieldOperations

/-- The loop of extended_gcd in src/src/utils/field_operations.rs.  All
variables are BigUint (unsigned); a BigUint subtraction whose result would
be negative panics in Rust, modelled by none.  The remainder update
old_r - quotient * r never underflows, the coefficient updates can. -/
def extended_gcd_loop : Nat → Nat → Nat → Nat → Nat → Nat → Nat → Option (Nat × Nat × Nat)
  | 0, _, _, _, _, _, _ => none
  | fuel + 1, old_r, r, old_s, s, old_t, t =>
    if r = 0 then some (old_r, old_s, old_t)
    else
      let quotient := old_r / r
      if quotient * s ≤ old_s ∧ quotient * t ≤ old_t then
        extended_gcd_loop fuel r (old_r - quotient * r) s (old_s - quotient * s) t (old_t - quotient * t)
      else none

/-- extended_gcd from src/src/utils/field_operations.rs (400 fuel covers
every possible Euclidean iteration count on 128-bit inputs). -/
def extended_gcd (a b : Nat) : Option (Nat × Nat × Nat) :=
  extended_gcd_loop 400 a b 1 0 0 1

/-- FieldElement::inverse.  The outer Option models a panic inside
extended_gcd; the inner Option is the Option returned by the Rust code
(None when gcd is not 1). -/
def inverse (a : Nat) : Option (Option Nat) :=
  match extended_gcd a P with
  | none => none
  | some (gcd, x, _) => if gcd = 1 then some (some ((x + P) % P)) else some none

end FieldOperations

namespace MerkleTree

/-- MerkleTree::hash_two: digest of the concatenated minimal big-endian
encodings, reinterpreted as a big-endian integer (not reduced mod P). -/
def hash_two (hash : List Nat → List Nat) (a b : Nat) : Nat :=
  from_bytes_be (hash (to_bytes_be a ++ to_bytes_be b))

/-- One pass of chunks(2) in MerkleTree::new: adjacent pairs are combined,
a trailing unpaired element is carried over unchanged. -/
def next_level (hash : List Nat → List Nat) : List Nat → List Nat
  | [] => []
  | [x] => [x]
  | a :: b :: rest => hash_two hash a b :: next_level hash rest

/-- The while loop of MerkleTree::new collecting the layers bottom-up;
fuelled by the leaf count, which dominates the iteration count. -/
def build_loop (hash : List Nat → List Nat) : Nat → List Nat → List (List Nat)
  | 0, level => if level.isEmpty then [] else [level]
  | fuel + 1, level =>
    if level.length > 1 then level :: build_loop hash fuel (next_level hash level)
    else if level.isEmpty then [] else [level]

/-- The MerkleTree struct: the original leaves plus the derived layers. -/
structure Tree where
  leaves : List Nat
  tree : List (List Nat)

/-- MerkleTree::new. -/
def new (hash : List Nat → List Nat) (leaves : List Nat) : Tree :=
  { leaves := leaves, tree := build_loop hash leaves.length leaves }

/-- MerkleTree::root: head of the last layer, none when there are no layers. -/
def root (t : Tree) : Option Nat :=
  t.tree.getLast?.map (fun level => level.headD 0)

/-- The layer loop of MerkleTree::generate_proof over all layers but the
last: record (sibling, is_left) when the sibling index is in range,
nothing when the current node is carried over. -/
def proof_loop : List (List Nat) → Nat → List (Nat × Bool)
  | [], _ => []
  | level :: rest, idx =>
    let sibling_index := if idx % 2 = 0 then idx + 1 else idx - 1
    (if sibling_index < level.length then [(level.getD sibling_index 0, idx % 2 == 0)] else [])
      ++ proof_loop rest (idx / 2)

/-- MerkleTree::generate_proof: none for an out-of-range index. -/
def generate_proof (t : Tree) (index : Nat) : Option (List (Nat × Bool)) :=
  if index ≥ t.leaves.length then none
  else some (proof_loop t.tree.dropLast index)

/-- MerkleTree::verify_proof: replay hash_two along the recorded path and
compare with the root. -/
def verify_proof (hash : List Nat → List Nat) (root : Nat) (leaf : Nat)
    (proof : List (Nat × Bool)) : Bool :=
  (proof.foldl (fun h p => if p.2 then hash_two hash h p.1 else hash_two hash p.1 h) leaf) == root

end MerkleTree

/-- LoquatSignature from src/src/signature/loquat.rs. -/
structure LoquatSignature where
  sigma : Nat
  merkle_root : Nat
deriving DecidableEq

namespace Loquat

/-- Loquat::mod_sub helper. -/
def mod_sub (a b modulus : Nat) : Nat :=
  (a + modulus - b) % modulus

/-- Loquat::sign with the SHA3-256 digest injected as hash.  The message
digest is reduced modulo P, the Legendre PRF selects between addition and
subtraction, and a two-leaf Merkle tree binds sigma to the reduced digest.
none models the panic inside LegendrePRF::evaluate (or the unwrap of an
absent Merkle root, which cannot occur on two leaves). -/
def sign (hash : List Nat → List Nat) (sk : Nat) (message : List Nat) : Option LoquatSignature :=
  let message_u128 := from_bytes_be (hash message) % P
  match LegendrePRF.evaluate_with_key sk message_u128 with
  | none => none
  | some prf_result =>
    let signature_value :=
      if prf_result = 1 then (sk + message_u128) % P
      else mod_sub sk message_u128 P
    match MerkleTree.root (MerkleTree.new hash [signature_value, message_u128]) with
    | none => none
    | some merkle_root => some { sigma := signature_value, merkle_root := merkle_root }

/-- Loquat::verify: recover the two candidate secret keys from sigma and
the reduced digest, match their digests against pk (preferring case 1),
re-evaluate the PRF for the selected candidate, recompute sigma and the
Merkle root, and compare.  none models the panic inside
LegendrePRF::evaluate on the selected candidate. -/
def verify (hash : List Nat → List Nat) (pk : List Nat) (message : List Nat)
    (signature : LoquatSignature) : Option Bool :=
  let message_u128 := from_bytes_be (hash message) % P
  let sigma_u128 := signature.sigma % P
  let expected_sk_case1 := mod_sub sigma_u128 message_u128 P
  let expected_sk_case2 := (sigma_u128 + message_u128) % P
  let expected_pk_case1 := hash (to_be_bytes_u128 expected_sk_case1)
  let expected_pk_case2 := hash (to_be_bytes_u128 expected_sk_case2)
  let pk_matches_case1 := expected_pk_case1 == pk
  let pk_matches_case2 := expected_pk_case2 == pk
  if !pk_matches_case1 && !pk_matches_case2 then some false
  else
    let expected_sk := if pk_matches_case1 then expected_sk_case1 else expected_sk_case2
    match LegendrePRF.evaluate_with_key expected_sk message_u128 with
    | none => none
    | some prf_result =>
      let recomputed_sigma_value :=
        if prf_result = 1 then (expected_sk + message_u128) % P
        else mod_sub expected_sk message_u128 P
      match MerkleTree.root (MerkleTree.new hash [recomputed_sigma_value, message_u128]) with
      | none => none
      | some expected_root =>
        some ((pk_matches_case1 || pk_matches_case2) && expected_root == signature.merkle_root)

end Loquat

/-- RingSignature from src/src/signature/ring_signature.rs. -/
structure RingSignature where
  sigma : Nat
  ring_commitment : Nat
  challenge : Nat
deriving DecidableEq

namespace LoquatRingSignature

/-- The BigUint mod_add helper of src/src/signature/ring_signature.rs. -/
def ring_mod_add (a b modulus : Nat) : Nat :=
  (a + b) % modulus

/-- LoquatRingSignature::sign with the digest and the random challenge
injected.  The ring commitment is the Merkle root over the public keys
decoded big-endian; none models the unwrap panic on an absent root (empty
public key list).  The signer index is accepted and ignored, as in the
Rust code. -/
def sign (hash : List Nat → List Nat) (sk : Nat) (message : List Nat)
    (public_keys : List (List Nat)) (signer_index : Nat) (challenge : Nat) :
    Option RingSignature :=
  let message_int := from_bytes_be (hash message)
  let _ := signer_index
  match MerkleTree.root (MerkleTree.new hash (public_keys.map from_bytes_be)) with
  | none => none
  | some ring_commitment =>
    let sigma := ring_mod_add (ring_mod_add sk message_int P) challenge P
    some { sigma := sigma, ring_commitment := ring_commitment, challenge := challenge }

/-- LoquatRingSignature::verify: recompute the Merkle root over the public
keys and compare it with the stored commitment, and require sigma < P.
The message digest is computed but takes no part in the verdict.  none
models the unwrap panic on an absent root (empty public key list). -/
def verify (hash : List Nat → List Nat) (public_keys : List (List Nat))
    (message : List Nat) (ring_sig : RingSignature) : Option Bool :=
  let _message_int := from_bytes_be (hash message)
  match MerkleTree.root (MerkleTree.new hash (public_keys.map from_bytes_be)) with
  | none => none
  | some expected_commitment =>
    some (expected_commitment == ring_sig.ring_commitment && decide (ring_sig.sigma < P))

end LoquatRingSignature

/-- AggregateSignature from src/src/signature/aggregate.rs. -/
structure AggregateSignature where
  aggregated_sigma : Nat
  challenge : Nat
deriving DecidableEq

namespace LoquatAggregate

/-- LoquatAggregate::mod_add helper (branching on potential overflow). -/
def mod_add (a b modulus : Nat) : Nat :=
  let a := a % modulus
  let b := b % modulus
  if a > modulus - b then (a - (modulus - b)) % modulus
  else (a + b) % modulus

/-- LoquatAggregate::aggregate with the random challenge injected: the
aggregated sigma is the running modular sum of the sigma values. -/
def aggregate (signatures : List LoquatSignature) (challenge : Nat) : AggregateSignature :=
  let aggregated_sigma :=
    signatures.foldl (fun acc sig => mod_add (acc % P) (sig.sigma % P) P) 0
  { aggregated_sigma := aggregated_sigma, challenge := challenge }

/-- LoquatAggregate::verify: reject on a length mismatch, otherwise sum the
reduced message digests modulo P and compare with the aggregated sigma
reduced modulo P.  Public keys contribute nothing beyond their count. -/
def verify (hash : List Nat → List Nat) (public_keys : List (List Nat))
    (messages : List (List Nat)) (agg_sig : AggregateSignature) : Bool :=
  if public_keys.length ≠ messages.length then false
  else
    let computed :=
      (public_keys.zip messages).foldl
        (fun acc pm => mod_add (acc % P) (from_bytes_be (hash pm.2) % P) P) 0
    (computed % P) == (agg_sig.aggregated_sigma % P)

end LoquatAggregate

/-- A digest instance for concrete witnesses: constant 32-byte all-zero
output (a legitimate instantiation of the external digest contract, which
only requires a deterministic 32-byte output). -/
def hashZero : List Nat → List Nat :=
  fun _ => List.replicate 32 0

/-- A digest instance whose constant 32-byte output decodes to 1. -/
def hashOne : List Nat → List Nat :=
  fun _ => List.replicate 31 0 ++ [1]

/-- A digest instance whose constant 32-byte output decodes to 2^256 - 1. -/
def hashFF : List Nat → List Nat :=
  fun _ => List.replicate 32 255

/-!  Arithmetic correctness of the fuelled loops, an efficient strict
modular exponentiation used to evaluate the Legendre symbol on concrete
inputs without deep lazy reduction, and primality of P. -/

/-- Strict square-and-multiply modular exponentiation accumulator, used
only as a proof-side evaluation vehicle (proved equal below to the mod_pow
of the code). -/
def powModFast (m : Nat) : Nat → Nat → Nat → Nat → Nat
  | 0, acc, _, _ => acc
  | fuel + 1, acc, b, e =>
    if e = 0 then acc
    else powModFast m fuel (if e % 2 = 1 then acc * b % m else acc) (b * b % m) (e / 2)

theorem powModFast_correct (m : Nat) (hm : 0 < m) :
    ∀ fuel acc b e, acc < m → e < 2 ^ fuel →
      powModFast m fuel acc b e = acc * b ^ e % m := by
  intro fuel
  induction fuel with
  | zero =>
    intro acc b e hacc he
    have he0 : e = 0 := by omega
    simp [powModFast, he0, Nat.mod_eq_of_lt hacc]
  | succ fuel ih =>
    intro acc b e hacc he
    rw [powModFast]
    by_cases he0 : e = 0
    · simp [he0, Nat.mod_eq_of_lt hacc]
    · simp only [he0, if_false]
      have hlt : e / 2 < 2 ^ fuel := by
        have h2 : 2 ^ (fuel + 1) = 2 * 2 ^ fuel := by ring
        omega
      have hacc2 : (if e % 2 = 1 then acc * b % m else acc) < m := by
        split
        · exact Nat.mod_lt _ hm
        · exact hacc
      rw [ih _ _ _ hacc2 hlt]
      have hmodeq :
          (if e % 2 = 1 then acc * b % m else acc) * (b * b % m) ^ (e / 2) ≡
            acc * b ^ (e % 2) * (b * b) ^ (e / 2) [MOD m] := by
        apply Nat.ModEq.mul
        · split
          · next hpar =>
            rw [hpar, pow_one]
            exact Nat.mod_modEq _ _
          · next hpar =>
            have : e % 2 = 0 := by omega
            rw [this, pow_zero, mul_one]
        · exact Nat.ModEq.pow _ (Nat.mod_modEq _ _)
      rw [hmodeq]
      congr 1
      have hsplit : e = e % 2 + 2 * (e / 2) := by omega
      calc acc * b ^ (e % 2) * (b * b) ^ (e / 2)
          = acc * (b ^ (e % 2) * b ^ (2 * (e / 2))) := by ring
        _ = acc * b ^ (e % 2 + 2 * (e / 2)) := by rw [pow_add]
        _ = acc * b ^ e := by rw [← hsplit]

namespace LegendrePRF

theorem mod_add_eq (a b n : Nat) : mod_add a b n = (a + b) % n := by
  simp [mod_add, Nat.add_mod]

theorem mod_mul_loop_correct (n : Nat) (hn : 0 < n) :
    ∀ fuel res a_temp b_temp, res < n → b_temp < 2 ^ fuel →
      mod_mul_loop n fuel res a_temp b_temp = (res + a_temp * b_temp) % n := by
  intro fuel
  induction fuel with
  | zero =>
    intro res a_temp b_temp hres hb
    have hb0 : b_temp = 0 := by omega
    simp [mod_mul_loop, hb0, Nat.mod_eq_of_lt hres]
  | succ fuel ih =>
    intro res a_temp b_temp hres hb
    rw [mod_mul_loop]
    by_cases hb0 : b_temp = 0
    · simp [hb0, Nat.mod_eq_of_lt hres]
    · simp only [hb0, if_false]
      have hlt : b_temp / 2 < 2 ^ fuel := by
        have h2 : 2 ^ (fuel + 1) = 2 * 2 ^ fuel := by ring
        omega
      have hres2 : (if b_temp % 2 = 1 then mod_add res a_temp n else res) < n := by
        split
        · rw [mod_add]; exact Nat.mod_lt _ hn
        · exact hres
      rw [ih _ _ _ hres2 hlt]
      have hmodeq :
          (if b_temp % 2 = 1 then mod_add res a_temp n else res) +
            mod_add a_temp a_temp n * (b_temp / 2) ≡
          (res + a_temp * (b_temp % 2)) + (a_temp + a_temp) * (b_temp / 2) [MOD n] := by
        apply Nat.ModEq.add
        · split
          · next hpar =>
            rw [mod_add_eq, hpar, mul_one]
            exact Nat.mod_modEq _ _
          · next hpar =>
            have : b_temp % 2 = 0 := by omega
            rw [this, mul_zero, add_zero]
        · exact Nat.ModEq.mul_right _ (by rw [mod_add_eq]; exact Nat.mod_modEq _ _)
      rw [hmodeq]
      congr 1
      have hsplit : b_temp = b_temp % 2 + 2 * (b_temp / 2) := by omega
      calc res + a_temp * (b_temp % 2) + (a_temp + a_temp) * (b_temp / 2)
          = res + a_temp * (b_temp % 2 + 2 * (b_temp / 2)) := by ring
        _ = res + a_temp * b_temp := by rw [← hsplit]

theorem mod_mul_eq (a b n : Nat) (hn : 0 < n) (hn2 : n ≤ 2 ^ 128) :
    mod_mul a b n = a * b % n := by
  rw [mod_mul, mod_mul_loop_correct n hn 128 0 (a % n) (b % n) hn
        (lt_of_lt_of_le (Nat.mod_lt _ hn) hn2)]
  simp [Nat.mul_mod]

theorem mod_pow_loop_correct (n : Nat) (hn : 0 < n) (hn2 : n ≤ 2 ^ 128) :
    ∀ fuel result base_mod exp_temp, result < n → exp_temp < 2 ^ fuel →
      mod_pow_loop n fuel result base_mod exp_temp = result * base_mod ^ exp_temp % n := by
  intro fuel
  induction fuel with
  | zero =>
    intro result base_mod exp_temp hres he
    have he0 : exp_temp = 0 := by omega
    simp [mod_pow_loop, he0, Nat.mod_eq_of_lt hres]
  | succ fuel ih =>
    intro result base_mod exp_temp hres he
    rw [mod_pow_loop]
    by_cases he0 : exp_temp = 0
    · simp [he0, Nat.mod_eq_of_lt hres]
    · simp only [he0, if_false]
      have hlt : exp_temp / 2 < 2 ^ fuel := by
        have h2 : 2 ^ (fuel + 1) = 2 * 2 ^ fuel := by ring
        omega
      have hres2 : (if exp_temp % 2 = 1 then mod_mul result base_mod n else result) < n := by
        split
        · rw [mod_mul_eq _ _ _ hn hn2]; exact Nat.mod_lt _ hn
        · exact hres
      rw [ih _ _ _ hres2 hlt]
      have hmodeq :
          (if exp_temp % 2 = 1 then mod_mul result base_mod n else result) *
            mod_mul base_mod base_mod n ^ (exp_temp / 2) ≡
          result * base_mod ^ (exp_temp % 2) * (base_mod * base_mod) ^ (exp_temp / 2) [MOD n] := by
        apply Nat.ModEq.mul
        · split
          · next hpar =>
            rw [mod_mul_eq _ _ _ hn hn2, hpar, pow_one]
            exact Nat.mod_modEq _ _
          · next hpar =>
            have : exp_temp % 2 = 0 := by omega
            rw [this, pow_zero, mul_one]
        · exact Nat.ModEq.pow _ (by rw [mod_mul_eq _ _ _ hn hn2]; exact Nat.mod_modEq _ _)
      rw [hmodeq]
      congr 1
      have hsplit : exp_temp = exp_temp % 2 + 2 * (exp_temp / 2) := by omega
      calc result * base_mod ^ (exp_temp % 2) * (base_mod * base_mod) ^ (exp_temp / 2)
          = result * (base_mod ^ (exp_temp % 2) * base_mod ^ (2 * (exp_temp / 2))) := by ring
        _ = result * base_mod ^ (exp_temp % 2 + 2 * (exp_temp / 2)) := by rw [pow_add]
        _ = result * base_mod ^ exp_temp := by rw [← hsplit]

theorem mod_pow_eq (base exp n : Nat) (hn : 1 < n) (hn2 : n ≤ 2 ^ 128)
    (he : exp < 2 ^ 128) : mod_pow base exp n = base ^ exp % n := by
  rw [mod_pow]
  have hne : ¬ n = 1 := by omega
  rw [if_neg hne,
    mod_pow_loop_correct n (by omega) hn2 128 1 (base % n) exp hn he]
  simp [Nat.pow_mod]

theorem mod_sub_P_one : mod_sub P 1 P = P - 1 := by decide

/-- The Legendre symbol in closed form: the code computes the modular
exponentiation of a by (P-1)/2. -/
theorem legendre_symbol_spec (a : Nat) :
    legendre_symbol a =
      if a = 0 then 0 else if a ^ ((P - 1) / 2) % P = 1 then 1 else -1 := by
  rw [legendre_symbol]
  by_cases h : a = 0
  · simp [h]
  · simp only [h, if_false]
    rw [mod_sub_P_one,
      mod_pow_eq a ((P - 1) / 2) P (by decide) (by decide) (by decide)]

/-- Proof-side mirror of legendre_symbol through the strict exponentiation
accumulator, for cheap kernel evaluation at concrete inputs. -/
def legendre_symbol_fast (a : Nat) : Int :=
  if a = 0 then 0
  else if powModFast P 128 1 (a % P) ((P - 1) / 2) = 1 then 1 else -1

theorem legendre_symbol_eq_fast (a : Nat) :
    legendre_symbol a = legendre_symbol_fast a := by
  rw [legendre_symbol_spec, legendre_symbol_fast]
  by_cases h : a = 0
  · simp [h]
  · simp only [h, if_false]
    rw [powModFast_correct P (by decide) 128 1 (a % P) ((P - 1) / 2) (by decide) (by decide),
      one_mul, ← Nat.pow_mod]

/-- Proof-side mirror of evaluate through legendre_symbol_fast. -/
def evaluate_fast (secret_key x : Nat) : Option Nat :=
  let k_x := mod_add secret_key x P
  let s := legendre_symbol_fast k_x
  if s = 1 then some 0
  else if s = -1 then some 1
  else none

theorem evaluate_eq_fast (secret_key x : Nat) :
    evaluate secret_key x = evaluate_fast secret_key x := by
  simp only [evaluate, evaluate_fast, legendre_symbol_eq_fast]

end LegendrePRF

theorem P_prime : Nat.Prime P :=
  lucas_lehmer_sufficiency 127 (by norm_num) (by norm_num)

instance : Fact (Nat.Prime P) := ⟨P_prime⟩

/-- Euler criterion instance for P: a nonzero residue raised to (P-1)/2
is 1 or P-1 modulo P. -/
theorem euler_pm_one (a : Nat) (h1 : 1 ≤ a) (h2 : a < P) :
    a ^ ((P - 1) / 2) % P = 1 ∨ a ^ ((P - 1) / 2) % P = P - 1 := by
  have hcast : ((a : ZMod P)) ≠ 0 := by
    rw [Ne, ZMod.natCast_zmod_eq_zero_iff_dvd]
    intro hdvd
    have := Nat.le_of_dvd (by omega) hdvd
    omega
  have hsq : ((a : ZMod P)) ^ ((P - 1) / 2) * ((a : ZMod P)) ^ ((P - 1) / 2) = 1 := by
    rw [← pow_add]
    have hhalf : (P - 1) / 2 + (P - 1) / 2 = P - 1 := by
      have : 2 ∣ P - 1 := by decide
      omega
    rw [hhalf]
    exact ZMod.pow_card_sub_one_eq_one hcast
  have hx : ((a : ZMod P)) ^ ((P - 1) / 2) = 1 ∨ ((a : ZMod P)) ^ ((P - 1) / 2) = -1 :=
    mul_self_eq_one_iff.mp hsq
  have hrepr : (((a ^ ((P - 1) / 2) % P : ℕ)) : ZMod P) = ((a : ZMod P)) ^ ((P - 1) / 2) := by
    push_cast [ZMod.natCast_mod]
    ring
  have hlt : a ^ ((P - 1) / 2) % P < P := Nat.mod_lt _ (by decide)
  rcases hx with hx | hx
  · left
    have hone : (((a ^ ((P - 1) / 2) % P : ℕ)) : ZMod P) = ((1 : ℕ) : ZMod P) := by
      rw [hrepr, hx]; norm_num
    have hv := congrArg ZMod.val hone
    rwa [ZMod.val_cast_of_lt hlt, ZMod.val_cast_of_lt (by decide : (1 : ℕ) < P)] at hv
  · right
    have hneg : (((P - 1 : ℕ)) : ZMod P) = -1 := by
      have hself : ((P : ℕ) : ZMod P) = 0 := ZMod.natCast_self P
      push_cast [Nat.cast_sub (by decide : 1 ≤ P)]
      rw [hself]; ring
    have heq : (((a ^ ((P - 1) / 2) % P : ℕ)) : ZMod P) = (((P - 1 : ℕ)) : ZMod P) := by
      rw [hrepr, hx, hneg]
    have hv := congrArg ZMod.val heq
    rwa [ZMod.val_cast_of_lt hlt, ZMod.val_cast_of_lt (by decide : P - 1 < P)] at hv

namespace Loquat

/-- Proof-side mirror of sign through evaluate_fast, for cheap kernel
evaluation at concrete inputs (proved equal to sign below). -/
def sign_fast (hash : List Nat → List Nat) (sk : Nat) (message : List Nat) : Option LoquatSignature :=
  let message_u128 := from_bytes_be (hash message) % P
  match LegendrePRF.evaluate_fast (sk % P) message_u128 with
  | none => none
  | some prf_result =>
    let signature_value :=
      if prf_result = 1 then (sk + message_u128) % P
      else mod_sub sk message_u128 P
    match MerkleTree.root (MerkleTree.new hash [signature_value, message_u128]) with
    | none => none
    | some merkle_root => some { sigma := signature_value, merkle_root := merkle_root }

theorem sign_eq_fast (hash : List Nat → List Nat) (sk : Nat) (message : List Nat) :
    sign hash sk message = sign_fast hash sk message := by
  simp only [sign, sign_fast, LegendrePRF.evaluate_with_key, LegendrePRF.evaluate_eq_fast]

end Loquat

/-! Helper lemmas shared by the claim theorems. -/

/-- On a nonzero residue the PRF evaluation returns a bit (0 or 1). -/
theorem evaluate_cases (k x : Nat) (h : (k + x) % P ≠ 0) :
    LegendrePRF.evaluate k x = some 0 ∨ LegendrePRF.evaluate k x = some 1 := by
  have hk : LegendrePRF.mod_add k x P = (k + x) % P := LegendrePRF.mod_add_eq k x P
  simp only [LegendrePRF.evaluate, hk]
  rw [LegendrePRF.legendre_symbol]
  simp only [h, if_false]
  by_cases hpow : LegendrePRF.mod_pow ((k + x) % P) (LegendrePRF.mod_sub P 1 P / 2) P = 1
  · left; simp [hpow]
  · right; norm_num [hpow]

theorem modsub_lt (a b : Nat) : Loquat.mod_sub a b P < P :=
  Nat.mod_lt _ (by decide)

theorem modsub_of_add (sk m : Nat) (hsk : sk < P) (hm : m < P) :
    Loquat.mod_sub ((sk + m) % P) m P = sk := by
  rw [Loquat.mod_sub]
  have h1 : (sk + m) % P + P - m = (sk + m) % P + (P - m) := by omega
  rw [h1, Nat.mod_add_mod]
  have h2 : sk + m + (P - m) = sk + P := by omega
  rw [h2, Nat.add_mod_right, Nat.mod_eq_of_lt hsk]

theorem add_of_modsub (sk m : Nat) (hsk : sk < P) (hm : m < P) :
    (Loquat.mod_sub sk m P + m) % P = sk := by
  rw [Loquat.mod_sub, Nat.mod_add_mod]
  have h2 : sk + P - m + m = sk + P := by omega
  rw [h2, Nat.add_mod_right, Nat.mod_eq_of_lt hsk]

theorem root_pair (hash : List Nat → List Nat) (a b : Nat) :
    MerkleTree.root (MerkleTree.new hash [a, b]) = some (MerkleTree.hash_two hash a b) := rfl

/-- The digest contract assumed by the repository: a deterministic 32-byte
output whose entries are bytes. -/
def GoodHash (hash : List Nat → List Nat) : Prop :=
  ∀ x, (hash x).length = 32 ∧ ∀ b ∈ hash x, b < 256

theorem hashZero_good : GoodHash hashZero := by
  intro x
  refine ⟨by simp [hashZero], ?_⟩
  intro b hb
  simp [hashZero, List.mem_replicate] at hb
  omega

theorem from_bytes_be_foldl_lt (l : List Nat) :
    ∀ acc, (∀ b ∈ l, b < 256) →
      List.foldl (fun acc b => acc * 256 + b) acc l < (acc + 1) * 256 ^ l.length := by
  induction l with
  | nil =>
    intro acc _
    simp [List.foldl]
  | cons b t ih =>
    intro acc h
    simp only [List.foldl_cons, List.length_cons]
    have hb : b < 256 := h b (by simp)
    have hstep := ih (acc * 256 + b) (fun x hx => h x (by simp [hx]))
    have h1 : acc * 256 + b + 1 ≤ (acc + 1) * 256 := by omega
    calc List.foldl (fun acc b => acc * 256 + b) (acc * 256 + b) t
        < (acc * 256 + b + 1) * 256 ^ t.length := hstep
      _ ≤ ((acc + 1) * 256) * 256 ^ t.length := Nat.mul_le_mul_right _ h1
      _ = (acc + 1) * 256 ^ (t.length + 1) := by rw [pow_succ]; ring

theorem from_bytes_be_lt (l : List Nat) (h : ∀ b ∈ l, b < 256) :
    from_bytes_be l < 256 ^ l.length := by
  have := from_bytes_be_foldl_lt l 0 h
  simpa [from_bytes_be] using this

theorem hash_two_lt (hash : List Nat → List Nat) (hg : GoodHash hash) (a b : Nat) :
    MerkleTree.hash_two hash a b < 2 ^ 256 := by
  rw [MerkleTree.hash_two]
  have h1 := (hg (to_bytes_be a ++ to_bytes_be b)).1
  have h2 := (hg (to_bytes_be a ++ to_bytes_be b)).2
  have hlt := from_bytes_be_lt _ h2
  rw [h1] at hlt
  calc from_bytes_be (hash (to_bytes_be a ++ to_bytes_be b)) < 256 ^ 32 := hlt
    _ = 2 ^ 256 := by norm_num

theorem extended_gcd_loop_panics (a : Nat) (h1 : 1 ≤ a) (h2 : a < P) (fuel : Nat) :
    FieldOperations.extended_gcd_loop (fuel + 1 + 1) a P 1 0 0 1 = none := by
  rw [FieldOperations.extended_gcd_loop]
  rw [if_neg (show ¬ (P = 0) by decide)]
  have hq : a / P = 0 := Nat.div_eq_of_lt h2
  simp only [hq, Nat.zero_mul, Nat.mul_zero, Nat.zero_le, Nat.le_refl, and_self, if_true,
    Nat.sub_zero, Nat.mul_one, Nat.mul_zero]
  rw [FieldOperations.extended_gcd_loop]
  rw [if_neg (show ¬ (a = 0) by omega)]
  have hdiv : 1 ≤ P / a := (Nat.one_le_div_iff (by omega)).mpr (by omega)
  have hcond : ¬ (P / a * 1 ≤ 0 ∧ P / a * 0 ≤ 1) := by
    intro hcon
    rcases hcon with ⟨hc1, _⟩
    rw [Nat.mul_one] at hc1
    omega
  rw [if_neg hcond]

theorem zip_foldl_ignores_fst (f : Nat → List Nat → Nat) :
    ∀ (pks1 pks2 msgs : List (List Nat)) (acc : Nat), pks1.length = pks2.length →
      (pks1.zip msgs).foldl (fun a pm => f a pm.2) acc =
        (pks2.zip msgs).foldl (fun a pm => f a pm.2) acc := by
  intro pks1
  induction pks1 with
  | nil =>
    intro pks2 msgs acc h
    cases pks2 with
    | nil => rfl
    | cons q t => simp at h
  | cons p t ih =>
    intro pks2 msgs acc h
    cases pks2 with
    | nil => simp at h
    | cons q t2 =>
      cases msgs with
      | nil => rfl
      | cons m ms =>
        simp only [List.zip_cons_cons, List.foldl_cons]
        exact ih t2 ms (f acc m) (by simpa using h)

/-- Ring verification reads the message digest but never uses it: the
verdict is a function of the public keys and the stored commitment only. -/
theorem ring_verify_ignores_message (hash : List Nat → List Nat)
    (pks : List (List Nat)) (m1 m2 : List Nat) (rs : RingSignature) :
    LoquatRingSignature.verify hash pks m1 rs = LoquatRingSignature.verify hash pks m2 rs := rfl


/-! Claim theorems. -/

/-- C1 (counterexample): the round trip is not true for every secret key in
[1, P-1] and message: with a digest whose reduced value is m = 1 and the
in-range secret key sk = P - 1, sign already aborts (the Legendre PRF is
evaluated at (sk + m) mod P = 0 and panics), so verify(Digest(sk), M,
sign(sk, M)) cannot return true. -/
theorem loquat_roundtrip_cex :
    (Loquat.sign hashOne (P - 1) []).bind
      (Loquat.verify hashOne (hashOne (to_be_bytes_u128 (P - 1))) []) ≠ some true := by
  decide

/-- C1 (amended): for every digest function, every secret key sk in
[1, P-1] and every message whose reduced digest m satisfies
(sk + m) mod P different from 0, and provided the digest does not collide
on the spurious subtraction-branch candidate key, verify(Digest(sk), M,
sign(sk, M)) returns true. -/
theorem loquat_sign_verify_roundtrip (hash : List Nat → List Nat) (sk : Nat) (M : List Nat)
    (hsk1 : 1 ≤ sk) (hsk2 : sk < P)
    (hnz : (sk + from_bytes_be (hash M) % P) % P ≠ 0)
    (hnc : hash (to_be_bytes_u128 (Loquat.mod_sub
              (Loquat.mod_sub sk (from_bytes_be (hash M) % P) P)
              (from_bytes_be (hash M) % P) P)) = hash (to_be_bytes_u128 sk) →
           Loquat.mod_sub (Loquat.mod_sub sk (from_bytes_be (hash M) % P) P)
              (from_bytes_be (hash M) % P) P = sk) :
    (Loquat.sign hash sk M).bind
      (Loquat.verify hash (hash (to_be_bytes_u128 sk)) M) = some true := by
  have hmP : from_bytes_be (hash M) % P < P := Nat.mod_lt _ (by decide)
  have hskP : sk % P = sk := Nat.mod_eq_of_lt hsk2
  rcases evaluate_cases sk (from_bytes_be (hash M) % P) hnz with hE | hE
  · simp only [Loquat.sign, LegendrePRF.evaluate_with_key, hskP, hE]
    norm_num
    rw [root_pair]
    show Loquat.verify hash (hash (to_be_bytes_u128 sk)) M
      { sigma := Loquat.mod_sub sk (from_bytes_be (hash M) % P) P,
        merkle_root := MerkleTree.hash_two hash (Loquat.mod_sub sk (from_bytes_be (hash M) % P) P)
          (from_bytes_be (hash M) % P) } = some true
    simp only [Loquat.verify]
    rw [Nat.mod_eq_of_lt (modsub_lt sk (from_bytes_be (hash M) % P))]
    rw [add_of_modsub sk (from_bytes_be (hash M) % P) hsk2 hmP]
    rw [beq_self_eq_true]
    by_cases hc1 : hash (to_be_bytes_u128 (Loquat.mod_sub
        (Loquat.mod_sub sk (from_bytes_be (hash M) % P) P) (from_bytes_be (hash M) % P) P)) =
        hash (to_be_bytes_u128 sk)
    · rw [hnc hc1, beq_self_eq_true]
      simp [LegendrePRF.evaluate_with_key, hskP, hE, root_pair]
    · rw [beq_eq_false_iff_ne.mpr hc1]
      simp [LegendrePRF.evaluate_with_key, hskP, hE, root_pair]
  · simp only [Loquat.sign, LegendrePRF.evaluate_with_key, hskP, hE, reduceIte]
    rw [root_pair]
    show Loquat.verify hash (hash (to_be_bytes_u128 sk)) M
      { sigma := (sk + from_bytes_be (hash M) % P) % P,
        merkle_root := MerkleTree.hash_two hash ((sk + from_bytes_be (hash M) % P) % P)
          (from_bytes_be (hash M) % P) } = some true
    simp only [Loquat.verify]
    rw [Nat.mod_eq_of_lt (show (sk + from_bytes_be (hash M) % P) % P < P from
      Nat.mod_lt _ (by decide))]
    rw [modsub_of_add sk (from_bytes_be (hash M) % P) hsk2 hmP]
    rw [beq_self_eq_true]
    simp [LegendrePRF.evaluate_with_key, hskP, hE, root_pair]

/-- C1 (witness): the amended round trip holds at the all-zero digest,
sk = 5 and the empty message. -/
theorem loquat_sign_verify_roundtrip_witness :
    (1 ≤ 5 ∧ 5 < P ∧ (5 + from_bytes_be (hashZero []) % P) % P ≠ 0) ∧
    (Loquat.sign hashZero 5 []).bind
      (Loquat.verify hashZero (hashZero (to_be_bytes_u128 5)) []) = some true :=
  ⟨⟨by decide, by decide, by decide⟩,
   loquat_sign_verify_roundtrip hashZero 5 [] (by decide) (by decide) (by decide)
     (fun _ => by decide)⟩

/-- C2: LegendrePRF::evaluate does not return a recoverable error when the
shifted key is 0 modulo P: it reaches the panic arm (modelled none) for
every secret key and input with (secret_key + x) mod P = 0. -/
theorem legendre_evaluate_zero_panics (secret_key x : Nat)
    (h : (secret_key + x) % P = 0) :
    LegendrePRF.evaluate secret_key x = none := by
  have hk : LegendrePRF.mod_add secret_key x P = 0 := by rw [LegendrePRF.mod_add_eq, h]
  simp only [LegendrePRF.evaluate, hk, LegendrePRF.legendre_symbol]
  norm_num

/-- C2 (witness): the panic is reached at secret_key = 1 and x = P - 1. -/
theorem legendre_evaluate_zero_panics_witness :
    (1 + (P - 1)) % P = 0 ∧ LegendrePRF.evaluate 1 (P - 1) = none :=
  ⟨by decide, legendre_evaluate_zero_panics 1 (P - 1) (by decide)⟩

/-- C3: ring verification aborts (unwrap of an absent Merkle root, modelled
none) on every empty public-key list, for every digest, message and ring
signature, contradicting the requirement that verify-family operations
never abort on attacker-supplied input. -/
theorem ring_verify_empty_panics (hash : List Nat → List Nat) (message : List Nat)
    (rs : RingSignature) :
    LoquatRingSignature.verify hash [] message rs = none := rfl

/-- C3 (witness): the abort at a concrete empty-ring input. -/
theorem ring_verify_empty_panics_witness :
    LoquatRingSignature.verify hashZero [] [0]
      { sigma := 1, ring_commitment := 0, challenge := 1 } = none :=
  ring_verify_empty_panics hashZero [0] { sigma := 1, ring_commitment := 0, challenge := 1 }

/-- C4: the aggregate round trip fails already for N = 1: an honest
signature under the all-zero digest with sk = 5 has sigma = 5, while
aggregate verification sums the reduced message digests (here 0), so
verify returns false where the claim requires true. -/
theorem aggregate_roundtrip_fails :
    (Loquat.sign hashZero 5 []).map
      (fun s => LoquatAggregate.verify hashZero [hashZero (to_be_bytes_u128 5)] [[]]
        (LoquatAggregate.aggregate [s] 1)) = some false := by
  rw [Loquat.sign_eq_fast]
  decide

/-- C5: ring verification accepts a tampered message: signing message [0]
over a three-key ring and verifying the same ring signature against the
different message [1] yields true, because the verdict never consults the
message; the claim (and the repository test) requires false. -/
theorem ring_verify_tampered_accepts :
    (LoquatRingSignature.sign hashZero 5 [0] [[1], [2], [3]] 1 7).bind
      (fun rs => LoquatRingSignature.verify hashZero [[1], [2], [3]] [1] rs) = some true := by
  decide

/-- C6: the Merkle round trip holds: for every digest, every leaf list of
length 1, 2, 3, 4, 5 or 8 and every in-range index, verifying the
generated proof for that leaf against the root succeeds, including the
odd-count carried-forward layers. -/
theorem merkle_roundtrip (hash : List Nat → List Nat) (leaves : List Nat) (i : Nat)
    (hlen : leaves.length = 1 ∨ leaves.length = 2 ∨ leaves.length = 3 ∨
            leaves.length = 4 ∨ leaves.length = 5 ∨ leaves.length = 8)
    (hi : i < leaves.length) :
    MerkleTree.verify_proof hash ((MerkleTree.root (MerkleTree.new hash leaves)).getD 0)
      (leaves.getD i 0) ((MerkleTree.generate_proof (MerkleTree.new hash leaves) i).getD [])
      = true := by
  rcases leaves with _ | ⟨a, leaves⟩
  · simp at hlen
  rcases leaves with _ | ⟨b, leaves⟩
  · have h1 : i < 1 := by simpa using hi
    interval_cases i
    · exact beq_self_eq_true _
  rcases leaves with _ | ⟨c, leaves⟩
  · have h2 : i < 2 := by simpa using hi
    interval_cases i
    · exact beq_self_eq_true _
    · exact beq_self_eq_true _
  rcases leaves with _ | ⟨d, leaves⟩
  · have h3 : i < 3 := by simpa using hi
    interval_cases i
    · exact beq_self_eq_true _
    · exact beq_self_eq_true _
    · exact beq_self_eq_true _
  rcases leaves with _ | ⟨e, leaves⟩
  · have h4 : i < 4 := by simpa using hi
    interval_cases i
    · exact beq_self_eq_true _
    · exact beq_self_eq_true _
    · exact beq_self_eq_true _
    · exact beq_self_eq_true _
  rcases leaves with _ | ⟨f, leaves⟩
  · have h5 : i < 5 := by simpa using hi
    interval_cases i
    · exact beq_self_eq_true _
    · exact beq_self_eq_true _
    · exact beq_self_eq_true _
    · exact beq_self_eq_true _
    · exact beq_self_eq_true _
  rcases leaves with _ | ⟨g, leaves⟩
  · simp at hlen
  rcases leaves with _ | ⟨k, leaves⟩
  · simp at hlen
  rcases leaves with _ | ⟨x9, leaves⟩
  · have h8 : i < 8 := by simpa using hi
    interval_cases i
    · exact beq_self_eq_true _
    · exact beq_self_eq_true _
    · exact beq_self_eq_true _
    · exact beq_self_eq_true _
    · exact beq_self_eq_true _
    · exact beq_self_eq_true _
    · exact beq_self_eq_true _
    · exact beq_self_eq_true _
  · simp only [List.length_cons] at hlen
    omega

/-- C6 (witness): the round trip at a single-leaf tree under the all-zero
digest. -/
theorem merkle_roundtrip_witness :
    (([7] : List Nat).length = 1 ∨ ([7] : List Nat).length = 2 ∨ ([7] : List Nat).length = 3 ∨
      ([7] : List Nat).length = 4 ∨ ([7] : List Nat).length = 5 ∨ ([7] : List Nat).length = 8) ∧
    (0 < ([7] : List Nat).length) ∧
    MerkleTree.verify_proof hashZero
      ((MerkleTree.root (MerkleTree.new hashZero [7])).getD 0)
      (([7] : List Nat).getD 0 0)
      ((MerkleTree.generate_proof (MerkleTree.new hashZero [7]) 0).getD []) = true :=
  ⟨Or.inl rfl, by decide, merkle_roundtrip hashZero [7] 0 (Or.inl rfl) (by decide)⟩

/-- C7: FieldElement::inverse never returns the modular inverse: for every
field element a in [1, P-1] the extended Euclidean loop aborts on a BigUint
coefficient subtraction underflow (modelled none) at its second iteration,
while for a = 0 it returns the Rust None (no inverse). -/
theorem field_inverse_panics :
    (∀ a, 1 ≤ a → a < P → FieldOperations.inverse a = none) ∧
      FieldOperations.inverse 0 = some none := by
  constructor
  · intro a h1 h2
    have hloop := extended_gcd_loop_panics a h1 h2 398
    have hgcd : FieldOperations.extended_gcd a P = none := by
      rw [FieldOperations.extended_gcd]
      exact hloop
    simp [FieldOperations.inverse, hgcd]
  · decide

/-- C7 (witness): the abort at a = 42, the test input used by the repository. -/
theorem field_inverse_panics_witness :
    (1 ≤ 42 ∧ 42 < P) ∧ FieldOperations.inverse 42 = none :=
  ⟨⟨by decide, by decide⟩, field_inverse_panics.1 42 (by decide) (by decide)⟩

/-- C8 (counterexample): the merkle_root stored in a signature is not
canonically reduced below P: signing with a 32-byte all-0xFF digest,
sk = 1 and the empty message stores merkle_root = 2^256 - 1, which is
at least P. -/
theorem signature_root_not_reduced_cex :
    ¬ (((Loquat.sign hashFF 1 []).map (fun s => s.merkle_root)).getD 0 < P) := by
  rw [Loquat.sign_eq_fast]
  decide

/-- C8 (amended): under the digest contract (32-byte byte-valued output),
sigma values produced by sign are canonically reduced below P, while the
merkle_root stored in a signature and every Merkle combine output are only
bounded by 2^256 and are not reduced modulo P. -/
theorem signature_fields_bounds (hash : List Nat → List Nat) (hg : GoodHash hash) :
    (∀ sk message s, Loquat.sign hash sk message = some s →
      s.sigma < P ∧ s.merkle_root < 2 ^ 256) ∧
    (∀ a b, MerkleTree.hash_two hash a b < 2 ^ 256) := by
  refine ⟨?_, fun a b => hash_two_lt hash hg a b⟩
  intro sk message s hsign
  cases hev : LegendrePRF.evaluate_with_key sk (from_bytes_be (hash message) % P) with
  | none => simp [Loquat.sign, hev] at hsign
  | some prf_result =>
    simp only [Loquat.sign, hev, root_pair, Option.some.injEq] at hsign
    rw [← hsign]
    constructor
    · split
      · exact Nat.mod_lt _ (by decide)
      · exact modsub_lt _ _
    · exact hash_two_lt hash hg _ _

/-- C8 (witness): the amended bounds at the all-zero digest, sk = 1 and
the empty message, whose signature is (sigma, merkle_root) = (1, 0). -/
theorem signature_fields_bounds_witness :
    GoodHash hashZero ∧ ((1 : Nat) < P ∧ (0 : Nat) < 2 ^ 256) :=
  ⟨hashZero_good,
   (signature_fields_bounds hashZero hashZero_good).1 1 [] { sigma := 1, merkle_root := 0 }
     (by rw [Loquat.sign_eq_fast]; decide)⟩

/-- C9: multiplicativity of the Legendre symbol as computed by the code:
for nonzero field elements a and b, the product of their symbols equals
the symbol of (a * b) mod P. -/
theorem legendre_symbol_mul (a b : Nat) (ha1 : 1 ≤ a) (ha2 : a < P)
    (hb1 : 1 ≤ b) (hb2 : b < P) :
    LegendrePRF.legendre_symbol a * LegendrePRF.legendre_symbol b =
      LegendrePRF.legendre_symbol (a * b % P) := by
  have hne : a * b % P ≠ 0 := by
    intro h0
    rcases (Nat.Prime.dvd_mul P_prime).mp (Nat.dvd_of_mod_eq_zero h0) with h | h
    · exact absurd (Nat.le_of_dvd (by omega) h) (by omega)
    · exact absurd (Nat.le_of_dvd (by omega) h) (by omega)
  rw [LegendrePRF.legendre_symbol_spec a, LegendrePRF.legendre_symbol_spec b,
    LegendrePRF.legendre_symbol_spec (a * b % P)]
  have ha0 : ¬ a = 0 := by omega
  have hb0 : ¬ b = 0 := by omega
  simp only [ha0, hb0, hne, if_false]
  have hw1 : (a * b % P) ^ ((P - 1) / 2) % P = (a * b) ^ ((P - 1) / 2) % P :=
    (Nat.pow_mod (a * b) ((P - 1) / 2) P).symm
  have hw2 : (a * b) ^ ((P - 1) / 2) % P =
      (a ^ ((P - 1) / 2) % P) * (b ^ ((P - 1) / 2) % P) % P := by
    rw [mul_pow, Nat.mul_mod]
  rcases euler_pm_one a ha1 ha2 with hu | hu <;> rcases euler_pm_one b hb1 hb2 with hv | hv <;>
    rw [hu, hv] at hw2 ⊢ <;> rw [hw1, hw2]
  · rw [show 1 * 1 % P = 1 from by decide]
    norm_num
  · rw [show 1 * (P - 1) % P = P - 1 from by decide]
    have hP1 : ¬ (P - 1 = 1) := by decide
    simp [hP1]
  · rw [show (P - 1) * 1 % P = P - 1 from by decide]
    have hP1 : ¬ (P - 1 = 1) := by decide
    simp [hP1]
  · rw [show (P - 1) * (P - 1) % P = 1 from by decide]
    have hP1 : ¬ (P - 1 = 1) := by decide
    simp [hP1]

/-- C9 (witness): the multiplicativity instance at the residue 4 and the
non-residue 5. -/
theorem legendre_symbol_mul_witness :
    (1 ≤ 4 ∧ 4 < P ∧ 1 ≤ 5 ∧ 5 < P) ∧
    LegendrePRF.legendre_symbol 4 * LegendrePRF.legendre_symbol 5 =
      LegendrePRF.legendre_symbol (4 * 5 % P) :=
  ⟨⟨by decide, by decide, by decide, by decide⟩,
   legendre_symbol_mul 4 5 (by decide) (by decide) (by decide) (by decide)⟩

/-- C10: aggregate verification does not depend on the contents of the
public keys: two public-key lists of equal length yield the same verdict
for every digest, message list and aggregate signature. -/
theorem aggregate_verify_pk_independent (hash : List Nat → List Nat)
    (messages : List (List Nat)) (agg_sig : AggregateSignature)
    (pks1 pks2 : List (List Nat)) (hlen : pks1.length = pks2.length) :
    LoquatAggregate.verify hash pks1 messages agg_sig =
      LoquatAggregate.verify hash pks2 messages agg_sig := by
  rw [LoquatAggregate.verify, LoquatAggregate.verify, hlen,
    zip_foldl_ignores_fst
      (fun a msg => LoquatAggregate.mod_add (a % P) (from_bytes_be (hash msg) % P) P)
      pks1 pks2 messages 0 hlen]

/-- C10 (witness): the public-key independence at two different singleton
key lists. -/
theorem aggregate_verify_pk_independent_witness :
    ([[1]] : List (List Nat)).length = ([[2]] : List (List Nat)).length ∧
    LoquatAggregate.verify hashZero [[1]] [[3]] { aggregated_sigma := 0, challenge := 1 } =
      LoquatAggregate.verify hashZero [[2]] [[3]] { aggregated_sigma := 0, challenge := 1 } :=
  ⟨rfl, aggregate_verify_pk_independent hashZero [[3]]
    { aggregated_sigma := 0, challenge := 1 } [[1]] [[2]] rfl⟩
